import Mathlib

/-!
Shallow embedding of `src/matrix_utils.py` (a small linear-algebra utility
module) over exact rational arithmetic, together with proofs of the
specification's claims about it.

The module's functions delegate to an external numeric library (dense
arrays, matrix multiplication, transpose, inversion, integer matrix power)
and to an exact-arithmetic engine (reduced row echelon form with pivot
reporting).  Those external primitives are modelled here by their
mathematical meaning on rational matrices: inversion by the cofactor
formula with an explicit singular-matrix error, matrix power by iterated
multiplication, and RREF by Gauss-Jordan elimination.  The repository's own
code (`project_b_colspace`, `transpose_matrix`, `rref`,
`transition_probability`) is translated line by line on top of that layer.
All determinant and adjugate computations use executable cofactor
expansions (`detQ`, `adjQ`), proved equal to Mathlib's `Matrix.det` and
`Matrix.adjugate` below, so that every definition evaluates on concrete
inputs.
-/

open Matrix

/-- Errors raised by the numeric library and propagated unmodified by the
module: `singularMatrix` models the library's `SingularMatrixError`
(raised by matrix inversion), `shapeMismatch` models its shape-mismatch
error (raised by multiplication on nonconforming operands). -/
inductive NpError where
  | singularMatrix : NpError
  | shapeMismatch : NpError
deriving DecidableEq

instance {ε α : Type} [DecidableEq ε] [DecidableEq α] : DecidableEq (Except ε α) := fun x y =>
  match x, y with
  | .error a, .error b =>
    if h : a = b then isTrue (by rw [h]) else isFalse fun hh => by cases hh; exact h rfl
  | .error _, .ok _ => isFalse fun hh => by cases hh
  | .ok _, .error _ => isFalse fun hh => by cases hh
  | .ok a, .ok b =>
    if h : a = b then isTrue (by rw [h]) else isFalse fun hh => by cases hh; exact h rfl

/-- Shorthand for an `m × n` rational matrix, the model of a 2-D numeric
array of shape `(m, n)`. -/
abbrev Mat (m n : ℕ) := Matrix (Fin m) (Fin n) ℚ

/-- Executable determinant by cofactor expansion along the first column. -/
def detQ : {k : ℕ} → Mat k k → ℚ
  | 0, _ => 1
  | k + 1, M =>
    ∑ i : Fin (k + 1), (-1) ^ i.val * M i 0 * detQ (M.submatrix i.succAbove Fin.succ)

/-- Executable adjugate: entry `(i, j)` is the determinant of the matrix
with row `j` replaced by the `i`-th standard basis vector. -/
def adjQ {k : ℕ} (M : Mat k k) : Mat k k :=
  Matrix.of fun i j => detQ (M.updateRow j (Pi.single i 1))

/-- The mathematical inverse computed by the numeric library on a
nonsingular square matrix: `det⁻¹ • adjugate`.  On a singular matrix this
value is junk and is never returned (see `npInv`). -/
def matInv {k : ℕ} (M : Mat k k) : Mat k k :=
  (detQ M)⁻¹ • adjQ M

/-- Model of the numeric library's matrix inversion (`linalg.inv`): fails
with `SingularMatrixError` exactly when the determinant vanishes, and
otherwise returns the true inverse. -/
def npInv {k : ℕ} (M : Mat k k) : Except NpError (Mat k k) :=
  if detQ M = 0 then .error .singularMatrix else .ok (matInv M)

/-- Function `transpose_matrix` from the source: converts its argument to an array
and returns the transpose. -/
def transpose_matrix {m n : ℕ} (M : Mat m n) : Mat n m :=
  M.transpose

/-- The projection matrix `P = A (AᵗA)⁻¹ Aᵗ` formed on line 66 of the
source as `matmul(colspace_a, matmul(a_trans_a_inv, a_trans))`, using the
library inverse of the Gram matrix. -/
def projection_matrix {m n : ℕ} (A : Mat m n) : Mat m m :=
  A * (matInv (Aᵀ * A) * Aᵀ)

/-- Function `project_b_colspace` from the source with `need_transpose = False`:
computes `Aᵗ`, the Gram matrix `AᵗA`, its library inverse (which raises
`SingularMatrixError` on a singular Gram matrix, propagated to the caller
with no fallback), the projection matrix `P = A((AᵗA)⁻¹Aᵗ)`, and finally
`P·b`. -/
def project_b_colspace {m n k : ℕ} (b : Mat m k) (A : Mat m n) :
    Except NpError (Mat m k) :=
  let a_trans := Aᵀ
  let ata := a_trans * A
  match npInv ata with
  | .error e => .error e
  | .ok ata_inv => .ok ((A * (ata_inv * a_trans)) * b)

/-- Function `project_b_colspace` from the source with `need_transpose = True`:
`b` is transposed before the projection is applied. -/
def project_b_colspace_tr {m n k : ℕ} (b : Mat k m) (A : Mat m n) :
    Except NpError (Mat m k) :=
  project_b_colspace bᵀ A

/-- The specification's own projection formula, written exactly as the
spec states it: `projection = A (AᵗA)⁻¹ Aᵗ · b` with the mathematical
matrix inverse.  Used only to compare the code against the spec. -/
noncomputable def specProjection {m n k : ℕ} (A : Mat m n) (b : Mat m k) :
    Mat m k :=
  A * (Aᵀ * A)⁻¹ * Aᵀ * b

/-- Model of the numeric library's integer matrix power
(`linalg.matrix_power`) for a non-negative exponent: iterated
multiplication. -/
def matrix_power {s : ℕ} (T : Mat s s) : ℕ → Mat s s
  | 0 => 1
  | k + 1 => matrix_power T k * T

/-- Function `transition_probability` from the source: raises the transition matrix
to the given power and left-multiplies the initial probability row vector
by it. -/
def transition_probability {s : ℕ} (initial_prob : Fin s → ℚ)
    (transition_matrix : Mat s s) (periods : ℕ) : Fin s → ℚ :=
  Matrix.vecMul initial_prob (matrix_power transition_matrix periods)

/-! ### Gauss-Jordan elimination

Modelled from the spec: the exact-arithmetic engine used by `rref` is not
part of this repository; the spec describes it as "compute reduced row
echelon form and pivot columns of a matrix over exact rational
arithmetic".  It is modelled here by textbook Gauss-Jordan elimination
over `ℚ`: scan columns left to right, pick the first usable pivot row,
swap it up, scale the pivot to `1`, clear the rest of the column, and
record the pivot column index. -/

/-- Search rows `r, r+1, …` (controlled by fuel) for a nonzero entry in
column `c`. -/
def findPivotGo {m n : ℕ} (M : Mat m n) (c : Fin n) : ℕ → ℕ → Option (Fin m)
  | _, 0 => none
  | r, fuel + 1 =>
    if hr : r < m then
      if M ⟨r, hr⟩ c ≠ 0 then some ⟨r, hr⟩ else findPivotGo M c (r + 1) fuel
    else none

/-- First row at index `≥ r` whose entry in column `c` is nonzero. -/
def findPivot {m n : ℕ} (M : Mat m n) (r : ℕ) (c : Fin n) : Option (Fin m) :=
  findPivotGo M c r (m - r)

/-- Elementary row operation: exchange rows `i` and `j`. -/
def rowSwap {m n : ℕ} (M : Mat m n) (i j : Fin m) : Mat m n :=
  M.submatrix (Equiv.swap i j) id

/-- Elementary row operation: multiply row `r` by the scalar `k`. -/
def rowScale {m n : ℕ} (M : Mat m n) (r : Fin m) (k : ℚ) : Mat m n :=
  M.updateRow r (k • M r)

/-- Elementary row operation used to clear a pivot column: from every row
other than `r`, subtract its column-`c` entry times row `r`. -/
def elimCol {m n : ℕ} (M : Mat m n) (r : Fin m) (c : Fin n) : Mat m n :=
  Matrix.of fun i j => if i = r then M i j else M i j - M i c * M r j

/-- One full pivot placement at row `rf`, column `cf`, with the pivot
found in row `p`: swap row `p` up to row `rf`, scale the pivot entry to
`1`, and clear the rest of column `cf`. -/
def pivotStep {m n : ℕ} (M : Mat m n) (rf p : Fin m) (cf : Fin n) : Mat m n :=
  let M1 := rowSwap M rf p
  let M2 := rowScale M1 rf (M1 rf cf)⁻¹
  elimCol M2 rf cf

/-- The Gauss-Jordan main loop: at pivot row `r` and column `c`, with the
fuel bounding the number of columns still to process, either skip a column
with no usable pivot or place a pivot and recurse.  Returns the reduced
matrix and the list of pivot column indices. -/
def rref_go {m n : ℕ} : ℕ → Mat m n → ℕ → ℕ → Mat m n × List ℕ
  | 0, M, _, _ => (M, [])
  | fuel + 1, M, r, c =>
    if hc : c < n then
      if hr : r < m then
        match findPivot M r ⟨c, hc⟩ with
        | none => rref_go fuel M r (c + 1)
        | some p =>
          let rest := rref_go fuel (pivotStep M ⟨r, hr⟩ p ⟨c, hc⟩) (r + 1) (c + 1)
          (rest.1, c :: rest.2)
      else (M, [])
    else (M, [])

/-- Function `rref` from the source: build the exact-arithmetic matrix and return
the pair (reduced row echelon form, pivot column indices). -/
def rref {m n : ℕ} (matrix : Mat m n) : Mat m n × List ℕ :=
  rref_go n matrix 0 0

/-- The columns listed in `cols` are, in order, the standard basis vectors
starting at row index `firstRow`: the shape a run of Gauss-Jordan pivots
leaves behind. -/
def pivotCols {m n : ℕ} (R : Mat m n) : ℕ → List ℕ → Prop
  | _, [] => True
  | firstRow, c :: rest =>
    (∃ hc : c < n, ∀ i : Fin m, R i ⟨c, hc⟩ = if i.val = firstRow then 1 else 0) ∧
      pivotCols R (firstRow + 1) rest

/-! ### Untyped numeric arrays

A small model of the numeric library's n-dimensional arrays, needed where
the distinction between a 1-D vector and a 2-D matrix is observable: the
library's transpose is the identity on 1-D arrays. -/

/-- A numeric-library array: 1-D, 2-D, or the 0-D result of a 1-D by 1-D
product. -/
inductive NDArr where
  | vec : List ℚ → NDArr
  | mat : List (List ℚ) → NDArr
  | scalar : ℚ → NDArr
deriving DecidableEq

/-- The numeric library's transpose: swaps the two axes of a 2-D array and
is the identity on arrays of lower dimension. -/
def ndTranspose : NDArr → NDArr
  | .vec v => .vec v
  | .mat rows => .mat rows.transpose
  | .scalar x => .scalar x

/-- Dot product of two equal-length lists. -/
def dotL (v w : List ℚ) : ℚ :=
  (List.zipWith (· * ·) v w).sum

/-- Row-by-column product of two list matrices. -/
def matMulL (X Y : List (List ℚ)) : List (List ℚ) :=
  X.map fun row => Y.transpose.map fun col => dotL row col

/-- Matrix-vector product of a list matrix and a list vector. -/
def matVecL (X : List (List ℚ)) (v : List ℚ) : List ℚ :=
  X.map fun row => dotL row v

/-- Vector-matrix product of a list vector and a list matrix. -/
def vecMatL (v : List ℚ) (Y : List (List ℚ)) : List ℚ :=
  Y.transpose.map fun col => dotL v col

/-- Column count of a list matrix: the length of its first row. -/
def ncols (rows : List (List ℚ)) : ℕ :=
  (rows.headD []).length

/-- A list matrix is rectangular when every row has the common length. -/
def rect (rows : List (List ℚ)) : Bool :=
  rows.all fun r => r.length = ncols rows

/-- Read a list matrix into a square typed matrix (entries default to `0`
outside the lists; callers check shape first). -/
def listsToMat (rows : List (List ℚ)) (k : ℕ) : Mat k k :=
  Matrix.of fun i j => (rows.getD i.val []).getD j.val 0

/-- Write a typed matrix back to a list matrix. -/
def matToLists {a b : ℕ} (M : Mat a b) : List (List ℚ) :=
  List.ofFn fun i : Fin a => List.ofFn fun j : Fin b => M i j

/-- The numeric library's matmul on arrays: 2-D by 2-D, 2-D by 1-D, 1-D by
2-D, and 1-D by 1-D, failing on nonconforming shapes. -/
def ndMatmul : NDArr → NDArr → Except NpError NDArr
  | .mat X, .mat Y =>
    if rect X && rect Y && ncols X == Y.length then .ok (.mat (matMulL X Y))
    else .error .shapeMismatch
  | .mat X, .vec v =>
    if rect X && ncols X == v.length then .ok (.vec (matVecL X v))
    else .error .shapeMismatch
  | .vec v, .mat Y =>
    if rect Y && v.length == Y.length then .ok (.vec (vecMatL v Y))
    else .error .shapeMismatch
  | .vec v, .vec w =>
    if v.length == w.length then .ok (.scalar (dotL v w))
    else .error .shapeMismatch
  | _, _ => .error .shapeMismatch

/-- The numeric library's inversion on arrays: requires a rectangular
square 2-D array, fails with `SingularMatrixError` when the determinant
vanishes. -/
def ndInv : NDArr → Except NpError NDArr
  | .mat X =>
    if rect X && (ncols X == X.length) then
      let M := listsToMat X X.length
      if detQ M = 0 then .error .singularMatrix
      else .ok (.mat (matToLists (matInv M)))
    else .error .shapeMismatch
  | _ => .error .shapeMismatch

/-- Function `project_b_colspace` from the source, on untyped arrays, with the
`need_transpose` flag exactly as in the code: optionally transpose `b`,
form `Aᵗ`, `AᵗA`, `(AᵗA)⁻¹`, the projection matrix, and apply it to `b`. -/
def project_b_colspace_np (b colspace_a : NDArr) (need_transpose : Bool) :
    Except NpError NDArr :=
  let b1 := if need_transpose then ndTranspose b else b
  let a_trans := ndTranspose colspace_a
  match ndMatmul a_trans colspace_a with
  | .error e => .error e
  | .ok ata =>
    match ndInv ata with
    | .error e => .error e
    | .ok ata_inv =>
      match ndMatmul ata_inv a_trans with
      | .error e => .error e
      | .ok inner =>
        match ndMatmul colspace_a inner with
        | .error e => .error e
        | .ok pm => ndMatmul pm b1

/-! ### Console output

The three functions that print write one value to standard output before
returning.  The printed value is modelled as a list of Python values, so
that what is printed can be compared with what is returned. -/

/-- A value as it appears on the module's standard output: a numeric array
or the exact-arithmetic engine's (matrix, pivots) pair. -/
inductive PyValue where
  | npArr : NDArr → PyValue
  | rrefPair : List (List ℚ) → List ℕ → PyValue
deriving DecidableEq

/-- Function `project_b_colspace` with its console output: on success the computed
projection is printed (one line) and then returned. -/
def project_b_colspace_io {m n k : ℕ} (b : Mat m k) (A : Mat m n) :
    Except NpError (List PyValue × Mat m k) :=
  match project_b_colspace b A with
  | .error e => .error e
  | .ok projection => .ok ([PyValue.npArr (.mat (matToLists projection))], projection)

/-- Function `rref` with its console output: the (matrix, pivots) pair is printed
and then returned. -/
def rref_io {m n : ℕ} (matrix : Mat m n) : List PyValue × (Mat m n × List ℕ) :=
  let rref_matrix := rref matrix
  ([PyValue.rrefPair (matToLists rref_matrix.1) rref_matrix.2], rref_matrix)

/-- Function `transition_probability` with its console output: the source prints
`transition_power` (the matrix power, line 106), not the returned
probability vector. -/
def transition_probability_io {s : ℕ} (initial_prob : Fin s → ℚ)
    (transition_matrix : Mat s s) (periods : ℕ) : List PyValue × (Fin s → ℚ) :=
  let transition_power := matrix_power transition_matrix periods
  ([PyValue.npArr (.mat (matToLists transition_power))],
    Matrix.vecMul initial_prob transition_power)

/-! ## Bridge lemmas: the executable cofactor definitions agree with
Mathlib's determinant, adjugate, and nonsingular inverse. -/

theorem detQ_eq : ∀ {k : ℕ} (M : Mat k k), detQ M = M.det
  | 0, M => by simp [detQ, Matrix.det_fin_zero]
  | k + 1, M => by
    rw [Matrix.det_succ_column_zero, detQ]
    exact Finset.sum_congr rfl fun i _ => by rw [detQ_eq]

theorem adjQ_eq {k : ℕ} (M : Mat k k) : adjQ M = M.adjugate := by
  ext i j
  rw [adjQ, Matrix.adjugate_apply, Matrix.of_apply, detQ_eq]

theorem matInv_eq_inv {k : ℕ} (M : Mat k k) : matInv M = M⁻¹ := by
  rw [matInv, detQ_eq, adjQ_eq, Matrix.inv_def, Ring.inverse_eq_inv']

theorem npInv_ok {k : ℕ} (M : Mat k k) (h : M.det ≠ 0) :
    npInv M = .ok (matInv M) := by
  rw [npInv, if_neg]
  rw [detQ_eq]
  exact h

theorem npInv_singular {k : ℕ} (M : Mat k k) (h : M.det = 0) :
    npInv M = .error .singularMatrix := by
  rw [npInv, if_pos]
  rw [detQ_eq]
  exact h

theorem matrix_power_eq_pow {s : ℕ} (T : Mat s s) (n : ℕ) :
    matrix_power T n = T ^ n := by
  induction n with
  | zero => rw [matrix_power, pow_zero]
  | succ k ih => rw [matrix_power, ih, pow_succ]

/-- C8: transpose round-trip: for every rectangular 2-D matrix `M`,
`transpose_matrix (transpose_matrix M)` equals `M`. -/
theorem transpose_matrix_roundtrip {m n : ℕ} (M : Mat m n) :
    transpose_matrix (transpose_matrix M) = M :=
  Matrix.transpose_transpose M

/-- C5: the value `transition_probability p T n` is `p · Tⁿ`; at `n = 0` it is the
initial vector unchanged; and on the concrete scenario
`([1,0], [[0.9,0.1],[0.2,0.8]], 1)` it returns `[0.9, 0.1]`. -/
theorem transition_probability_spec :
    (∀ (s : ℕ) (p : Fin s → ℚ) (T : Mat s s) (n : ℕ),
        transition_probability p T n = Matrix.vecMul p (T ^ n)) ∧
    (∀ (s : ℕ) (p : Fin s → ℚ) (T : Mat s s),
        transition_probability p T 0 = p) ∧
    transition_probability ![(1 : ℚ), 0] !![(9 : ℚ)/10, 1/10; 2/10, 8/10] 1 =
      ![(9 : ℚ)/10, 1/10] := by
  refine ⟨fun s p T n => by rw [transition_probability, matrix_power_eq_pow],
    fun s p T => by rw [transition_probability, matrix_power, Matrix.vecMul_one],
    of_decide_eq_true (by with_unfolding_all rfl)⟩

/-- C10: when `b` is a 1-D vector, the `need_transpose` flag has no
effect, because the numeric library's transpose is the identity on 1-D
arrays. -/
theorem project_b_colspace_np_vec_flag_irrelevant (v : List ℚ) (A : List (List ℚ)) :
    project_b_colspace_np (.vec v) (.mat A) true =
      project_b_colspace_np (.vec v) (.mat A) false :=
  rfl

/-- C4: concrete scenario: for `A = [[1,0],[0,1],[0,0]]` and `b = [1,2,3]`
transposed to a column vector, the projection is `[1,2,0]`. -/
theorem project_b_colspace_concrete :
    project_b_colspace_tr !![(1 : ℚ), 2, 3] !![(1 : ℚ), 0; 0, 1; 0, 0] =
      .ok !![(1 : ℚ); 2; 0] :=
  of_decide_eq_true (by with_unfolding_all rfl)

/-- C2: when the Gram matrix `AᵗA` is singular, `project_b_colspace`
fails with the library's `SingularMatrixError`, propagated unmodified;
when `A` has full column rank (nonsingular Gram matrix) this error branch
is unreachable and a value is returned. -/
theorem project_b_colspace_singular_error {m n k : ℕ} (b : Mat m k) (A : Mat m n) :
    ((Aᵀ * A).det = 0 → project_b_colspace b A = .error .singularMatrix) ∧
    ((Aᵀ * A).det ≠ 0 → ∃ p : Mat m k, project_b_colspace b A = .ok p) := by
  constructor
  · intro h
    rw [project_b_colspace]
    rw [npInv_singular _ h]
  · intro h
    rw [project_b_colspace]
    rw [npInv_ok _ h]
    exact ⟨_, rfl⟩

/-- Witness for C2: `A = [[0],[0]]` has singular Gram matrix `[[0]]`, and
`project_b_colspace` surfaces `SingularMatrixError` on it. -/
theorem project_b_colspace_singular_error_witness :
    project_b_colspace !![(1 : ℚ); 1] !![(0 : ℚ); 0] = .error .singularMatrix :=
  (project_b_colspace_singular_error !![(1 : ℚ); 1] !![(0 : ℚ); 0]).1
    (by rw [← detQ_eq]; exact of_decide_eq_true (by with_unfolding_all rfl))

theorem project_b_colspace_eq_ok {m n k : ℕ} (b : Mat m k) (A : Mat m n)
    (h : (Aᵀ * A).det ≠ 0) :
    project_b_colspace b A = .ok (projection_matrix A * b) := by
  rw [project_b_colspace, npInv_ok _ h]
  rfl

theorem gram_cancel {m n : ℕ} (A : Mat m n) (h : IsUnit (Aᵀ * A).det) :
    Aᵀ * (A * ((Aᵀ * A)⁻¹ * Aᵀ)) = Aᵀ := by
  rw [← Matrix.mul_assoc Aᵀ A, ← Matrix.mul_assoc (Aᵀ * A), Matrix.mul_nonsing_inv _ h,
    Matrix.one_mul]

theorem specProjection_eq {m n k : ℕ} (A : Mat m n) (b : Mat m k) :
    specProjection A b = projection_matrix A * b := by
  rw [specProjection, projection_matrix, matInv_eq_inv, Matrix.mul_assoc A ((Aᵀ * A)⁻¹) Aᵀ]

/-- C1: for a full-column-rank `A` (nonsingular Gram matrix) and conforming
`b`, `project_b_colspace` returns exactly `A (AᵗA)⁻¹ Aᵗ b`, which is the
orthogonal projection of `b` onto the column space of `A`: the residual is
orthogonal to every column of `A` and the result lies in the column
space. -/
theorem project_b_colspace_orthogonal_projection {m n k : ℕ} (A : Mat m n) (b : Mat m k)
    (h : (Aᵀ * A).det ≠ 0) :
    project_b_colspace b A = .ok (specProjection A b) ∧
    Aᵀ * (b - specProjection A b) = 0 ∧
    ∃ C : Mat n k, specProjection A b = A * C := by
  have hu : IsUnit (Aᵀ * A).det := isUnit_iff_ne_zero.mpr h
  refine ⟨?_, ?_, ?_⟩
  · rw [project_b_colspace_eq_ok b A h, specProjection_eq]
  · rw [Matrix.mul_sub, specProjection_eq, projection_matrix, matInv_eq_inv,
      ← Matrix.mul_assoc Aᵀ _ b, gram_cancel A hu, sub_self]
  · exact ⟨matInv (Aᵀ * A) * Aᵀ * b,
      by rw [specProjection_eq, projection_matrix, Matrix.mul_assoc A, Matrix.mul_assoc]⟩

/-- Witness for C1 at `A = [[1,0],[0,1],[0,0]]`, `b = [[1],[2],[3]]`. -/
theorem project_b_colspace_orthogonal_projection_witness :
    project_b_colspace !![(1 : ℚ); 2; 3] !![(1 : ℚ), 0; 0, 1; 0, 0] =
      .ok (specProjection !![(1 : ℚ), 0; 0, 1; 0, 0] !![(1 : ℚ); 2; 3]) ∧
    (!![(1 : ℚ), 0; 0, 1; 0, 0])ᵀ *
        (!![(1 : ℚ); 2; 3] - specProjection !![(1 : ℚ), 0; 0, 1; 0, 0] !![(1 : ℚ); 2; 3]) = 0 ∧
    ∃ C : Mat 2 1, specProjection !![(1 : ℚ), 0; 0, 1; 0, 0] !![(1 : ℚ); 2; 3] =
      !![(1 : ℚ), 0; 0, 1; 0, 0] * C :=
  project_b_colspace_orthogonal_projection !![(1 : ℚ), 0; 0, 1; 0, 0] !![(1 : ℚ); 2; 3]
    (by rw [← detQ_eq]; exact of_decide_eq_true (by with_unfolding_all rfl))

/-- C3: the projection is idempotent: `P² = P` for the projection matrix,
and reprojecting the output of `project_b_colspace` (same `A`, no
transposition) returns it unchanged. -/
theorem project_b_colspace_idempotent {m n k : ℕ} (A : Mat m n) (b : Mat m k)
    (h : (Aᵀ * A).det ≠ 0) :
    projection_matrix A * projection_matrix A = projection_matrix A ∧
    ∀ p : Mat m k, project_b_colspace b A = .ok p → project_b_colspace p A = .ok p := by
  have hu : IsUnit (Aᵀ * A).det := isUnit_iff_ne_zero.mpr h
  have hPP : projection_matrix A * projection_matrix A = projection_matrix A := by
    rw [projection_matrix, matInv_eq_inv,
      Matrix.mul_assoc A ((Aᵀ * A)⁻¹ * Aᵀ) (A * ((Aᵀ * A)⁻¹ * Aᵀ)),
      Matrix.mul_assoc ((Aᵀ * A)⁻¹) Aᵀ (A * ((Aᵀ * A)⁻¹ * Aᵀ)), gram_cancel A hu]
  refine ⟨hPP, fun p hp => ?_⟩
  rw [project_b_colspace_eq_ok b A h] at hp
  injection hp with hp'
  rw [project_b_colspace_eq_ok p A h, ← hp', ← Matrix.mul_assoc, hPP]

/-- Witness for C3 at `A = [[1,0],[0,1],[0,0]]`, `b = [[1],[2],[3]]`. -/
theorem project_b_colspace_idempotent_witness :
    projection_matrix !![(1 : ℚ), 0; 0, 1; 0, 0] * projection_matrix !![(1 : ℚ), 0; 0, 1; 0, 0] =
      projection_matrix !![(1 : ℚ), 0; 0, 1; 0, 0] ∧
    ∀ p : Mat 3 1, project_b_colspace !![(1 : ℚ); 2; 3] !![(1 : ℚ), 0; 0, 1; 0, 0] = .ok p →
      project_b_colspace p !![(1 : ℚ), 0; 0, 1; 0, 0] = .ok p :=
  project_b_colspace_idempotent !![(1 : ℚ), 0; 0, 1; 0, 0] !![(1 : ℚ); 2; 3]
    (by rw [← detQ_eq]; exact of_decide_eq_true (by with_unfolding_all rfl))

theorem sum_vecMul_eq_one {s : ℕ} (q : Fin s → ℚ) (T : Mat s s)
    (hT : ∀ i, ∑ j, T i j = 1) (hq : ∑ i, q i = 1) :
    ∑ j, Matrix.vecMul q T j = 1 := by
  have h1 : ∑ j, Matrix.vecMul q T j = ∑ j, ∑ i, q i * T i j :=
    Finset.sum_congr rfl fun j _ => by rw [Matrix.vecMul, Matrix.dotProduct]
  rw [h1, Finset.sum_comm]
  have h2 : ∀ i : Fin s, ∑ j, q i * T i j = q i := fun i => by
    rw [← Finset.mul_sum, hT i, mul_one]
  rw [Finset.sum_congr rfl fun i _ => h2 i, hq]

/-- C6: probability-mass preservation: for a row-stochastic transition
matrix and an initial vector summing to 1, the output of
`transition_probability` sums to 1 for every period count. -/
theorem transition_probability_mass_preserved {s : ℕ} (p : Fin s → ℚ) (T : Mat s s)
    (n : ℕ) (hT : ∀ i, ∑ j, T i j = 1) (hp : ∑ i, p i = 1) :
    ∑ j, transition_probability p T n j = 1 := by
  induction n with
  | zero =>
    simp only [transition_probability, matrix_power, Matrix.vecMul_one]
    exact hp
  | succ k ih =>
    have hstep : transition_probability p T (k + 1) =
        Matrix.vecMul (transition_probability p T k) T := by
      rw [transition_probability, transition_probability, matrix_power,
        ← Matrix.vecMul_vecMul]
    simp only [hstep]
    exact sum_vecMul_eq_one _ T hT ih

/-- Witness for C6 with the row-stochastic matrix `[[0,1],[1,0]]`,
`p = [1,0]`, three periods. -/
theorem transition_probability_mass_preserved_witness :
    ∑ j, transition_probability ![(1 : ℚ), 0] !![(0 : ℚ), 1; 1, 0] 3 j = 1 :=
  transition_probability_mass_preserved ![(1 : ℚ), 0] !![(0 : ℚ), 1; 1, 0] 3
    (of_decide_eq_true (by with_unfolding_all rfl))
    (of_decide_eq_true (by with_unfolding_all rfl))

/-- Counterexample for C9: at `p = [1,0]`, `T = [[0.9,0.1],[0.2,0.8]]`,
one period, `transition_probability` does not print its return value: it
prints the 2-D matrix power, not the 1-D vector it returns. -/
theorem transition_probability_io_not_result :
    (transition_probability_io ![(1 : ℚ), 0] !![(9 : ℚ)/10, 1/10; 2/10, 8/10] 1).1 ≠
      [PyValue.npArr (.vec (List.ofFn
        (transition_probability_io ![(1 : ℚ), 0] !![(9 : ℚ)/10, 1/10; 2/10, 8/10] 1).2))] :=
  of_decide_eq_true (by with_unfolding_all rfl)

/-- C9 (amended): functions `project_b_colspace` and `rref` write exactly their
return value to standard output before returning; `transition_probability`
writes the matrix power `Tⁿ` (not its return value); in all three the
printed output does not affect the returned value, which equals the pure
function's result. -/
theorem io_functions_output :
    (∀ (m n k : ℕ) (b : Mat m k) (A : Mat m n) (p : Mat m k),
        project_b_colspace b A = .ok p →
        project_b_colspace_io b A = .ok ([PyValue.npArr (.mat (matToLists p))], p)) ∧
    (∀ (m n : ℕ) (M : Mat m n),
        rref_io M = ([PyValue.rrefPair (matToLists (rref M).1) (rref M).2], rref M)) ∧
    (∀ (s : ℕ) (p : Fin s → ℚ) (T : Mat s s) (periods : ℕ),
        transition_probability_io p T periods =
          ([PyValue.npArr (.mat (matToLists (matrix_power T periods)))],
            transition_probability p T periods)) := by
  refine ⟨fun m n k b A p hp => ?_, fun m n M => rfl, fun s p T periods => rfl⟩
  rw [project_b_colspace_io, hp]

/-- Witness for the amended C9: at the identity column-space matrix, the
projection succeeds and the printed value is the returned projection. -/
theorem io_functions_output_witness :
    project_b_colspace_io !![(5 : ℚ); 7] !![(1 : ℚ), 0; 0, 1] =
      .ok ([PyValue.npArr (.mat (matToLists (!![(5 : ℚ); 7] : Mat 2 1)))], !![(5 : ℚ); 7]) :=
  io_functions_output.1 2 2 1 !![(5 : ℚ); 7] !![(1 : ℚ), 0; 0, 1] !![(5 : ℚ); 7]
    (of_decide_eq_true (by with_unfolding_all rfl))

/-! ## Properties of the Gauss-Jordan building blocks -/

theorem findPivotGo_some {m n : ℕ} (M : Mat m n) (c : Fin n) :
    ∀ (fuel r : ℕ) (i : Fin m), findPivotGo M c r fuel = some i → r ≤ i.val ∧ M i c ≠ 0 := by
  intro fuel
  induction fuel with
  | zero => intro r i h; exact absurd h (by rw [findPivotGo]; exact Option.noConfusion)
  | succ fuel ih =>
    intro r i h
    rw [findPivotGo] at h
    by_cases hr : r < m
    · rw [dif_pos hr] at h
      by_cases hz : M ⟨r, hr⟩ c ≠ 0
      · rw [if_pos hz] at h
        cases h
        exact ⟨le_refl _, hz⟩
      · rw [if_neg hz] at h
        obtain ⟨h1, h2⟩ := ih (r + 1) i h
        exact ⟨le_trans (Nat.le_succ r) h1, h2⟩
    · rw [dif_neg hr] at h
      exact Option.noConfusion h

theorem findPivotGo_none {m n : ℕ} (M : Mat m n) (c : Fin n) :
    ∀ (fuel r : ℕ), findPivotGo M c r fuel = none →
      ∀ i : Fin m, r ≤ i.val → i.val < r + fuel → M i c = 0 := by
  intro fuel
  induction fuel with
  | zero => intro r _ i h1 h2; omega
  | succ fuel ih =>
    intro r h i h1 h2
    rw [findPivotGo] at h
    by_cases hr : r < m
    · rw [dif_pos hr] at h
      by_cases hz : M ⟨r, hr⟩ c ≠ 0
      · rw [if_pos hz] at h; exact Option.noConfusion h
      · rw [if_neg hz] at h
        by_cases hir : i.val = r
        · have : i = ⟨r, hr⟩ := Fin.ext hir
          rw [this]
          exact not_not.mp hz
        · exact ih (r + 1) h i (by omega) (by omega)
    · exact absurd (lt_of_le_of_lt h1 i.isLt) (by omega)

theorem findPivot_some {m n : ℕ} (M : Mat m n) (r : ℕ) (c : Fin n) (i : Fin m)
    (h : findPivot M r c = some i) : r ≤ i.val ∧ M i c ≠ 0 :=
  findPivotGo_some M c (m - r) r i h

theorem findPivot_none {m n : ℕ} (M : Mat m n) (r : ℕ) (c : Fin n)
    (h : findPivot M r c = none) : ∀ i : Fin m, r ≤ i.val → M i c = 0 := by
  intro i hi
  exact findPivotGo_none M c (m - r) r h i hi (by omega)

theorem rowSwap_apply {m n : ℕ} (M : Mat m n) (i j a : Fin m) (b : Fin n) :
    rowSwap M i j a b = M (Equiv.swap i j a) b :=
  rfl

theorem rowScale_apply {m n : ℕ} (M : Mat m n) (r : Fin m) (k : ℚ) (a : Fin m) (b : Fin n) :
    rowScale M r k a b = if a = r then k * M r b else M a b := by
  rw [rowScale]
  by_cases h : a = r
  · rw [if_pos h, h, Matrix.updateRow_self]
    rfl
  · rw [if_neg h, Matrix.updateRow_ne h]

theorem elimCol_apply {m n : ℕ} (M : Mat m n) (r : Fin m) (c : Fin n) (a : Fin m) (b : Fin n) :
    elimCol M r c a b = if a = r then M a b else M a b - M a c * M r b :=
  rfl

theorem permMat_mul {m n : ℕ} (σ : Equiv.Perm (Fin m)) (M : Mat m n) :
    (Matrix.of fun a b => if σ a = b then (1 : ℚ) else 0) * M =
      Matrix.of fun a b => M (σ a) b := by
  ext a b
  rw [Matrix.mul_apply]
  simp only [Matrix.of_apply, ite_mul, one_mul, zero_mul]
  rw [Finset.sum_ite_eq]
  simp

theorem exists_left_mul_rowSwap {m n : ℕ} (M : Mat m n) (i j : Fin m) :
    ∃ E : Matrix (Fin m) (Fin m) ℚ, IsUnit E ∧ rowSwap M i j = E * M := by
  refine ⟨Matrix.of fun a b => if Equiv.swap i j a = b then (1 : ℚ) else 0, ?_, ?_⟩
  · have hEE : (Matrix.of fun a b => if Equiv.swap i j a = b then (1 : ℚ) else 0) *
        (Matrix.of fun a b => if Equiv.swap i j a = b then (1 : ℚ) else 0) = 1 := by
      rw [permMat_mul]
      ext a b
      simp [Matrix.one_apply, Equiv.swap_apply_self]
    exact ⟨⟨_, _, hEE, hEE⟩, rfl⟩
  · rw [permMat_mul]
    ext a b
    rw [rowSwap_apply, Matrix.of_apply]

theorem exists_left_mul_rowScale {m n : ℕ} (M : Mat m n) (r : Fin m) (k : ℚ) (hk : k ≠ 0) :
    ∃ E : Matrix (Fin m) (Fin m) ℚ, IsUnit E ∧ rowScale M r k = E * M := by
  refine ⟨Matrix.diagonal fun i => if i = r then k else 1, ?_, ?_⟩
  · have h1 : (Matrix.diagonal fun i => if i = r then k else 1) *
        (Matrix.diagonal fun i => if i = r then k⁻¹ else 1) = 1 := by
      rw [Matrix.diagonal_mul_diagonal]
      have : (fun i : Fin m => (if i = r then k else 1) * if i = r then k⁻¹ else 1) =
          fun _ : Fin m => (1 : ℚ) := by
        funext i
        by_cases h : i = r <;> simp [h, mul_inv_cancel₀ hk]
      rw [this, Matrix.diagonal_one]
    have h2 : (Matrix.diagonal fun i => if i = r then k⁻¹ else 1) *
        (Matrix.diagonal fun i => if i = r then k else 1) = 1 := by
      rw [Matrix.diagonal_mul_diagonal]
      have : (fun i : Fin m => (if i = r then k⁻¹ else 1) * if i = r then k else 1) =
          fun _ : Fin m => (1 : ℚ) := by
        funext i
        by_cases h : i = r <;> simp [h, inv_mul_cancel₀ hk]
      rw [this, Matrix.diagonal_one]
    exact ⟨⟨_, _, h1, h2⟩, rfl⟩
  · ext a b
    rw [rowScale_apply, Matrix.diagonal_mul]
    by_cases h : a = r
    · rw [if_pos h, if_pos h, h]
    · rw [if_neg h, if_neg h, one_mul]

theorem vecMulVec_single_mul {m n : ℕ} (u : Fin m → ℚ) (r : Fin m) (M : Mat m n) :
    Matrix.vecMulVec u (Pi.single r 1) * M = Matrix.of fun i j => u i * M r j := by
  ext a b
  rw [Matrix.mul_apply]
  simp only [Matrix.vecMulVec_apply, Matrix.of_apply, Pi.single_apply]
  have : ∀ k : Fin m, u a * (if k = r then (1 : ℚ) else 0) * M k b =
      if k = r then u a * M r b else 0 := by
    intro k
    by_cases h : k = r <;> simp [h]
  rw [Finset.sum_congr rfl fun k _ => this k, Finset.sum_ite_eq']
  simp

theorem exists_left_mul_elimCol {m n : ℕ} (M : Mat m n) (r : Fin m) (c : Fin n) :
    ∃ E : Matrix (Fin m) (Fin m) ℚ, IsUnit E ∧ elimCol M r c = E * M := by
  set u : Fin m → ℚ := fun i => if i = r then 0 else M i c with hu
  set W : Matrix (Fin m) (Fin m) ℚ := Matrix.vecMulVec u (Pi.single r 1) with hW
  have hWW : W * W = 0 := by
    rw [hW, vecMulVec_single_mul]
    ext a b
    simp only [Matrix.of_apply, Matrix.zero_apply, Matrix.vecMulVec_apply]
    have : u r = 0 := by rw [hu]; simp
    rw [this, zero_mul, mul_zero]
  have hmain : (1 - W) * (1 + W) = 1 ∧ (1 + W) * (1 - W) = 1 := by
    constructor
    · have h : (1 - W) * (1 + W) = 1 - W * W := by noncomm_ring
      rw [h, hWW, sub_zero]
    · have h : (1 + W) * (1 - W) = 1 - W * W := by noncomm_ring
      rw [h, hWW, sub_zero]
  refine ⟨1 - W, ⟨⟨1 - W, 1 + W, hmain.1, hmain.2⟩, rfl⟩, ?_⟩
  rw [Matrix.sub_mul, Matrix.one_mul, hW, vecMulVec_single_mul]
  ext a b
  rw [elimCol_apply]
  simp only [Matrix.sub_apply, Matrix.of_apply]
  by_cases h : a = r
  · rw [if_pos h, hu]
    simp [h]
  · rw [if_neg h, hu]
    simp [h]

theorem pivotStep_col_preserved {m n : ℕ} (M : Mat m n) (rf p : Fin m) (cf : Fin n)
    (hp : rf.val ≤ p.val) (j : Fin n) (hj : ∀ i : Fin m, rf.val ≤ i.val → M i j = 0) :
    ∀ a : Fin m, pivotStep M rf p cf a j = M a j := by
  rw [pivotStep]
  have h1 : ∀ a : Fin m, rowSwap M rf p a j = M a j := by
    intro a
    rw [rowSwap_apply]
    by_cases ha : a = rf
    · rw [ha, Equiv.swap_apply_left, hj p hp, hj rf (le_refl _)]
    · by_cases ha2 : a = p
      · rw [ha2, Equiv.swap_apply_right, hj rf (le_refl _), hj p hp]
      · rw [Equiv.swap_apply_of_ne_of_ne ha ha2]
  have h2 : ∀ a : Fin m,
      rowScale (rowSwap M rf p) rf ((rowSwap M rf p) rf cf)⁻¹ a j = M a j := by
    intro a
    rw [rowScale_apply]
    by_cases ha : a = rf
    · rw [if_pos ha, h1 rf, hj rf (le_refl _), mul_zero, ha, hj rf (le_refl _)]
    · rw [if_neg ha, h1 a]
  intro a
  rw [elimCol_apply]
  by_cases ha : a = rf
  · rw [if_pos ha, h2 a]
  · rw [if_neg ha, h2 rf, hj rf (le_refl _), mul_zero, sub_zero, h2 a]

theorem pivotStep_pivot_col {m n : ℕ} (M : Mat m n) (rf p : Fin m) (cf : Fin n)
    (hpz : M p cf ≠ 0) :
    ∀ a : Fin m, pivotStep M rf p cf a cf = if a = rf then 1 else 0 := by
  rw [pivotStep]
  have hM1 : rowSwap M rf p rf cf = M p cf := by
    rw [rowSwap_apply, Equiv.swap_apply_left]
  have hpivot1 : rowScale (rowSwap M rf p) rf ((rowSwap M rf p) rf cf)⁻¹ rf cf = 1 := by
    rw [rowScale_apply, if_pos rfl, inv_mul_cancel₀]
    rw [hM1]
    exact hpz
  intro a
  rw [elimCol_apply]
  by_cases ha : a = rf
  · rw [if_pos ha, ha, hpivot1, if_pos rfl]
  · rw [if_neg ha, hpivot1, mul_one, sub_self, if_neg ha]

theorem rref_go_preserves_col {m n : ℕ} :
    ∀ (fuel : ℕ) (M : Mat m n) (r c : ℕ) (j : Fin n),
      (∀ i : Fin m, r ≤ i.val → M i j = 0) →
      ∀ i : Fin m, (rref_go fuel M r c).1 i j = M i j := by
  intro fuel
  induction fuel with
  | zero => intro M r c j _ i; rw [rref_go]
  | succ fuel ih =>
    intro M r c j hj i
    rw [rref_go]
    by_cases hc : c < n
    · rw [dif_pos hc]
      by_cases hr : r < m
      · rw [dif_pos hr]
        cases hfp : findPivot M r ⟨c, hc⟩ with
        | none => exact ih M r (c + 1) j hj i
        | some p =>
          obtain ⟨hp1, _⟩ := findPivot_some M r ⟨c, hc⟩ p hfp
          have hstep := pivotStep_col_preserved M ⟨r, hr⟩ p ⟨c, hc⟩ hp1 j hj
          have hj3 : ∀ i : Fin m, r + 1 ≤ i.val →
              pivotStep M ⟨r, hr⟩ p ⟨c, hc⟩ i j = 0 := by
            intro i hi
            rw [hstep i]
            exact hj i (by omega)
          show (rref_go fuel (pivotStep M ⟨r, hr⟩ p ⟨c, hc⟩) (r + 1) (c + 1)).1 i j = M i j
          rw [ih _ (r + 1) (c + 1) j hj3 i, hstep i]
      · rw [dif_neg hr]
    · rw [dif_neg hc]

theorem rref_go_below_zero {m n : ℕ} :
    ∀ (fuel : ℕ) (M : Mat m n) (r c : ℕ), n ≤ c + fuel →
      (∀ (i : Fin m) (j : Fin n), r ≤ i.val → j.val < c → M i j = 0) →
      ∀ (i : Fin m) (j : Fin n), r + (rref_go fuel M r c).2.length ≤ i.val →
        (rref_go fuel M r c).1 i j = 0 := by
  intro fuel
  induction fuel with
  | zero =>
    intro M r c hn hbl i j hi
    rw [rref_go] at hi ⊢
    exact hbl i j (by simpa using hi) (by omega)
  | succ fuel ih =>
    intro M r c hn hbl i j hi
    rw [rref_go] at hi ⊢
    by_cases hc : c < n
    · rw [dif_pos hc] at hi ⊢
      by_cases hr : r < m
      · rw [dif_pos hr] at hi ⊢
        revert hi
        cases hfp : findPivot M r ⟨c, hc⟩ with
        | none =>
          intro hi
          have hbl1 : ∀ (i : Fin m) (j : Fin n), r ≤ i.val → j.val < c + 1 → M i j = 0 := by
            intro i j h1 h2
            by_cases hjc : j.val < c
            · exact hbl i j h1 hjc
            · have hje : j = ⟨c, hc⟩ := Fin.ext (show j.val = c by omega)
              rw [hje]
              exact findPivot_none M r ⟨c, hc⟩ hfp i h1
          exact ih M r (c + 1) (by omega) hbl1 i j hi
        | some p =>
          intro hi
          obtain ⟨hp1, hp2⟩ := findPivot_some M r ⟨c, hc⟩ p hfp
          replace hi : r + ((rref_go fuel (pivotStep M ⟨r, hr⟩ p ⟨c, hc⟩)
              (r + 1) (c + 1)).2.length + 1) ≤ i.val := hi
          show (rref_go fuel (pivotStep M ⟨r, hr⟩ p ⟨c, hc⟩) (r + 1) (c + 1)).1 i j = 0
          have hbl3 : ∀ (i : Fin m) (j : Fin n), r + 1 ≤ i.val → j.val < c + 1 →
              pivotStep M ⟨r, hr⟩ p ⟨c, hc⟩ i j = 0 := by
            intro i j h1 h2
            by_cases hjc : j.val < c
            · rw [pivotStep_col_preserved M ⟨r, hr⟩ p ⟨c, hc⟩ hp1 j
                (fun a ha => hbl a j ha hjc) i]
              exact hbl i j (by omega) hjc
            · have hje : j = ⟨c, hc⟩ := Fin.ext (show j.val = c by omega)
              rw [hje, pivotStep_pivot_col M ⟨r, hr⟩ p ⟨c, hc⟩ hp2 i, if_neg]
              intro hir
              rw [hir] at h1
              simp at h1
          exact ih _ (r + 1) (c + 1) (by omega) hbl3 i j (by omega)
      · rw [dif_neg hr] at hi ⊢
        exact absurd (lt_of_le_of_lt (by simpa using hi) i.isLt) (by omega)
    · rw [dif_neg hc] at hi ⊢
      exact hbl i j (by simpa using hi) (by omega)

theorem rref_go_pivotCols {m n : ℕ} :
    ∀ (fuel : ℕ) (M : Mat m n) (r c : ℕ),
      pivotCols (rref_go fuel M r c).1 r (rref_go fuel M r c).2 := by
  intro fuel
  induction fuel with
  | zero => intro M r c; rw [rref_go, pivotCols]; exact trivial
  | succ fuel ih =>
    intro M r c
    rw [rref_go]
    by_cases hc : c < n
    · rw [dif_pos hc]
      by_cases hr : r < m
      · rw [dif_pos hr]
        cases hfp : findPivot M r ⟨c, hc⟩ with
        | none => exact ih M r (c + 1)
        | some p =>
          obtain ⟨hp1, hp2⟩ := findPivot_some M r ⟨c, hc⟩ p hfp
          show pivotCols (rref_go fuel (pivotStep M ⟨r, hr⟩ p ⟨c, hc⟩) (r + 1) (c + 1)).1 r
            (c :: (rref_go fuel (pivotStep M ⟨r, hr⟩ p ⟨c, hc⟩) (r + 1) (c + 1)).2)
          rw [pivotCols]
          constructor
          · refine ⟨hc, fun i => ?_⟩
            have hz : ∀ a : Fin m, r + 1 ≤ a.val →
                pivotStep M ⟨r, hr⟩ p ⟨c, hc⟩ a ⟨c, hc⟩ = 0 := by
              intro a ha
              rw [pivotStep_pivot_col M ⟨r, hr⟩ p ⟨c, hc⟩ hp2 a, if_neg]
              intro har
              rw [har] at ha
              simp at ha
            rw [rref_go_preserves_col fuel _ (r + 1) (c + 1) ⟨c, hc⟩ hz i,
              pivotStep_pivot_col M ⟨r, hr⟩ p ⟨c, hc⟩ hp2 i]
            by_cases hir : i = (⟨r, hr⟩ : Fin m)
            · rw [if_pos hir, if_pos (by rw [hir])]
            · rw [if_neg hir, if_neg (fun hv => hir (Fin.ext hv))]
          · exact ih _ (r + 1) (c + 1)
      · rw [dif_neg hr, pivotCols]; exact trivial
    · rw [dif_neg hc, pivotCols]; exact trivial

theorem rref_go_pivots_bounds {m n : ℕ} :
    ∀ (fuel : ℕ) (M : Mat m n) (r c : ℕ),
      (∀ x ∈ (rref_go fuel M r c).2, c ≤ x ∧ x < n) ∧
      List.Pairwise (· < ·) (rref_go fuel M r c).2 ∧
      (rref_go fuel M r c).2.length ≤ m - r := by
  intro fuel
  induction fuel with
  | zero =>
    intro M r c
    rw [rref_go]
    exact ⟨fun x hx => absurd hx (List.not_mem_nil x), List.Pairwise.nil, by simp⟩
  | succ fuel ih =>
    intro M r c
    rw [rref_go]
    by_cases hc : c < n
    · rw [dif_pos hc]
      by_cases hr : r < m
      · rw [dif_pos hr]
        cases hfp : findPivot M r ⟨c, hc⟩ with
        | none =>
          obtain ⟨h1, h2, h3⟩ := ih M r (c + 1)
          exact ⟨fun x hx => ⟨by have := (h1 x hx).1; omega, (h1 x hx).2⟩, h2, h3⟩
        | some p =>
          obtain ⟨h1, h2, h3⟩ := ih (pivotStep M ⟨r, hr⟩ p ⟨c, hc⟩) (r + 1) (c + 1)
          show (∀ x ∈ c :: (rref_go fuel (pivotStep M ⟨r, hr⟩ p ⟨c, hc⟩) (r + 1) (c + 1)).2,
              c ≤ x ∧ x < n) ∧
            List.Pairwise (· < ·)
              (c :: (rref_go fuel (pivotStep M ⟨r, hr⟩ p ⟨c, hc⟩) (r + 1) (c + 1)).2) ∧
            (c :: (rref_go fuel (pivotStep M ⟨r, hr⟩ p ⟨c, hc⟩) (r + 1) (c + 1)).2).length ≤
              m - r
          refine ⟨?_, ?_, ?_⟩
          · intro x hx
            rcases List.mem_cons.mp hx with hx1 | hx2
            · exact ⟨le_of_eq hx1.symm, by rw [hx1]; exact hc⟩
            · exact ⟨by have := (h1 x hx2).1; omega, (h1 x hx2).2⟩
          · exact List.Pairwise.cons (fun x hx => by have := (h1 x hx).1; omega) h2
          · rw [List.length_cons]
            omega
      · rw [dif_neg hr]
        exact ⟨fun x hx => absurd hx (List.not_mem_nil x), List.Pairwise.nil, by simp⟩
    · rw [dif_neg hc]
      exact ⟨fun x hx => absurd hx (List.not_mem_nil x), List.Pairwise.nil, by simp⟩

theorem rref_go_row_equiv {m n : ℕ} :
    ∀ (fuel : ℕ) (M : Mat m n) (r c : ℕ),
      ∃ E : Matrix (Fin m) (Fin m) ℚ, IsUnit E ∧ (rref_go fuel M r c).1 = E * M := by
  intro fuel
  induction fuel with
  | zero => intro M r c; exact ⟨1, isUnit_one, by rw [rref_go, Matrix.one_mul]⟩
  | succ fuel ih =>
    intro M r c
    rw [rref_go]
    by_cases hc : c < n
    · rw [dif_pos hc]
      by_cases hr : r < m
      · rw [dif_pos hr]
        cases hfp : findPivot M r ⟨c, hc⟩ with
        | none => exact ih M r (c + 1)
        | some p =>
          obtain ⟨hp1, hp2⟩ := findPivot_some M r ⟨c, hc⟩ p hfp
          obtain ⟨E1, hE1, hswap⟩ := exists_left_mul_rowSwap M ⟨r, hr⟩ p
          have hk : (rowSwap M ⟨r, hr⟩ p ⟨r, hr⟩ ⟨c, hc⟩)⁻¹ ≠ 0 := by
            rw [rowSwap_apply, Equiv.swap_apply_left]
            exact inv_ne_zero hp2
          obtain ⟨E2, hE2, hscale⟩ := exists_left_mul_rowScale (rowSwap M ⟨r, hr⟩ p) ⟨r, hr⟩
            (rowSwap M ⟨r, hr⟩ p ⟨r, hr⟩ ⟨c, hc⟩)⁻¹ hk
          obtain ⟨E3, hE3, helim⟩ := exists_left_mul_elimCol
            (rowScale (rowSwap M ⟨r, hr⟩ p) ⟨r, hr⟩ (rowSwap M ⟨r, hr⟩ p ⟨r, hr⟩ ⟨c, hc⟩)⁻¹)
            ⟨r, hr⟩ ⟨c, hc⟩
          obtain ⟨E4, hE4, hrest⟩ := ih (pivotStep M ⟨r, hr⟩ p ⟨c, hc⟩) (r + 1) (c + 1)
          refine ⟨E4 * (E3 * (E2 * E1)), (hE4.mul (hE3.mul (hE2.mul hE1))), ?_⟩
          show (rref_go fuel (pivotStep M ⟨r, hr⟩ p ⟨c, hc⟩) (r + 1) (c + 1)).1 =
            E4 * (E3 * (E2 * E1)) * M
          rw [hrest, pivotStep, helim, hscale, hswap]
          rw [Matrix.mul_assoc E4, Matrix.mul_assoc E3, Matrix.mul_assoc E2]
      · rw [dif_neg hr]
        exact ⟨1, isUnit_one, by rw [Matrix.one_mul]⟩
    · rw [dif_neg hc]
      exact ⟨1, isUnit_one, by rw [Matrix.one_mul]⟩

theorem pairwise_bound_length :
    ∀ (l : List ℕ) (lo hi : ℕ), List.Pairwise (· < ·) l →
      (∀ x ∈ l, lo ≤ x ∧ x < hi) → l.length ≤ hi - lo := by
  intro l
  induction l with
  | nil => intro lo hi _ _; simp
  | cons x t ih =>
    intro lo hi hpw hb
    obtain ⟨hx, ht⟩ := List.pairwise_cons.mp hpw
    have hxb := hb x (List.mem_cons_self x t)
    have hlen := ih (x + 1) hi ht fun y hy =>
      ⟨by have := hx y hy; omega, (hb y (List.mem_cons_of_mem x hy)).2⟩
    rw [List.length_cons]
    omega

theorem pairwise_bound_full :
    ∀ (l : List ℕ) (lo hi : ℕ), List.Pairwise (· < ·) l →
      (∀ x ∈ l, lo ≤ x ∧ x < hi) → l.length = hi - lo →
      l = List.range' lo (hi - lo) := by
  intro l
  induction l with
  | nil => intro lo hi _ _ hlen; rw [← hlen]; rfl
  | cons x t ih =>
    intro lo hi hpw hb hlen
    obtain ⟨hx, ht⟩ := List.pairwise_cons.mp hpw
    have hxb := hb x (List.mem_cons_self x t)
    have htb : ∀ y ∈ t, x + 1 ≤ y ∧ y < hi := fun y hy =>
      ⟨by have := hx y hy; omega, (hb y (List.mem_cons_of_mem x hy)).2⟩
    have htlen : t.length ≤ hi - (x + 1) := pairwise_bound_length t (x + 1) hi ht htb
    rw [List.length_cons] at hlen
    have hxlo : x = lo := by omega
    subst hxlo
    have htfull : t = List.range' (x + 1) (hi - (x + 1)) :=
      ih (x + 1) hi ht htb (by omega)
    rw [htfull]
    have hsplit : hi - x = (hi - (x + 1)) + 1 := by omega
    rw [hsplit, List.range'_succ]

theorem pivotCols_range' {m n : ℕ} (R : Mat m n) :
    ∀ (len firstRow : ℕ), pivotCols R firstRow (List.range' firstRow len) →
      ∀ (t : ℕ), firstRow ≤ t → t < firstRow + len → ∀ hn : t < n,
        ∀ i : Fin m, R i ⟨t, hn⟩ = if i.val = t then 1 else 0 := by
  intro len
  induction len with
  | zero => intro firstRow _ t h1 h2; omega
  | succ len ih =>
    intro firstRow hpc t h1 h2 hn i
    rw [List.range'_succ, pivotCols] at hpc
    obtain ⟨⟨hc, hcol⟩, hrest⟩ := hpc
    by_cases ht : t = firstRow
    · subst ht
      have : (⟨t, hn⟩ : Fin n) = ⟨t, hc⟩ := rfl
      rw [this]
      exact hcol i
    · exact ih (firstRow + 1) (by simpa using hrest) t (by omega) (by omega) hn i

/-- C7: function `rref` returns the reduced row echelon form over exact rational
arithmetic together with the ordered (strictly increasing) list of pivot
column indices: the result is obtained from the input by an invertible row
transformation, the pivot count never exceeds `min(rows, cols)`, and for
every invertible square matrix the returned RREF is the identity. -/
theorem rref_spec {a b s : ℕ} (M : Mat a b) (S : Mat s s) :
    List.Pairwise (· < ·) (rref M).2 ∧
    (rref M).2.length ≤ min a b ∧
    (∃ E : Matrix (Fin a) (Fin a) ℚ, IsUnit E ∧ (rref M).1 = E * M) ∧
    (S.det ≠ 0 → (rref S).1 = 1 ∧ (rref S).2 = List.range' 0 s) := by
  obtain ⟨hbM, hpwM, hlenM⟩ := rref_go_pivots_bounds b M 0 0
  refine ⟨by rw [rref]; exact hpwM, ?_, by rw [rref]; exact rref_go_row_equiv b M 0 0, ?_⟩
  · rw [rref]
    refine le_min (by omega) ?_
    have := pairwise_bound_length (rref_go b M 0 0).2 0 b hpwM
      (fun x hx => ⟨Nat.zero_le _, (hbM x hx).2⟩)
    omega
  · intro hdet
    obtain ⟨hbS, hpwS, hlenS⟩ := rref_go_pivots_bounds s S 0 0
    obtain ⟨E, hE, hRE⟩ := rref_go_row_equiv s S 0 0
    have hRdet : (rref_go s S 0 0).1.det ≠ 0 := by
      rw [hRE, Matrix.det_mul]
      exact mul_ne_zero (((Matrix.isUnit_iff_isUnit_det E).mp hE).ne_zero) hdet
    have hlen_ge : ¬ (rref_go s S 0 0).2.length < s := by
      intro hlt
      have hrow : ∀ j : Fin s, (rref_go s S 0 0).1 ⟨(rref_go s S 0 0).2.length, hlt⟩ j = 0 := by
        intro j
        exact rref_go_below_zero s S 0 0 (by omega) (fun i j _ hj => absurd hj (by omega))
          ⟨(rref_go s S 0 0).2.length, hlt⟩ j (by simp)
      exact hRdet (Matrix.det_eq_zero_of_row_eq_zero _ hrow)
    have hlen : (rref_go s S 0 0).2.length = s := by omega
    have hps : (rref_go s S 0 0).2 = List.range' 0 s := by
      have := pairwise_bound_full (rref_go s S 0 0).2 0 s hpwS
        (fun x hx => ⟨Nat.zero_le _, (hbS x hx).2⟩) (by omega)
      simpa using this
    have hcols := rref_go_pivotCols s S 0 0
    rw [hps] at hcols
    have hentry : ∀ j i : Fin s, (rref_go s S 0 0).1 i j = if i.val = j.val then 1 else 0 := by
      intro j i
      have h := pivotCols_range' (rref_go s S 0 0).1 s 0 hcols j.val (Nat.zero_le _)
        (by omega) j.isLt i
      simpa using h
    constructor
    · rw [rref]
      ext i j
      rw [hentry j i, Matrix.one_apply]
      by_cases hij : i = j
      · rw [if_pos hij, if_pos (by rw [hij])]
      · rw [if_neg hij, if_neg (fun hv => hij (Fin.ext hv))]
    · rw [rref]
      exact hps

/-- Witness for C7: the invertible matrix `[[0,1],[1,0]]` reduces to the
identity with pivot columns `[0, 1]`. -/
theorem rref_spec_witness :
    (rref !![(0 : ℚ), 1; 1, 0]).1 = 1 ∧ (rref !![(0 : ℚ), 1; 1, 0]).2 = List.range' 0 2 :=
  (rref_spec !![(0 : ℚ), 1; 1, 0] !![(0 : ℚ), 1; 1, 0]).2.2.2
    (by rw [← detQ_eq]; exact of_decide_eq_true (by with_unfolding_all rfl))
